import Mathlib

/-!
Verification development for the Nachos MP4 file system
(`code/filesys/filesys.cc`, which also contains `directory.cc`).

The embedding models names and paths as lists of characters (C strings
without the terminating NUL). Create and Remove take the raw path string
and embed the source's own strtok-based parent/leaf split, including its
off-by-one prefix length (the accumulated sum skips the first token, not
the last, so the resolved parent prefix can cut a component short or keep
a trailing slash); their resolution uses the exact string-level
FindFormRoot. The Open, Openfile and List entry points, whose callers
pass the whole path untouched, are modelled over slash-free component
lists; the lemma `findFormRootStr_eq_findFormRoot` shows that view is the
string resolver's restriction to well-formed absolute paths. Each stored
directory-entry name carries its leading slash, exactly as Create stores
it via `sprintf(fileName, "/%s", cut)`.

Disk state is modelled per file: `tables s` is the content of the file whose
header lives at sector `s`, read as a directory table (`Directory::FetchFrom`
through `OpenFile(s)`); `headers s` is the file-header record at sector `s`;
`bitmap` is the persisted free-sector bitmap stored through `freeMapFile`.
-/

set_option maxRecDepth 100000

namespace NachosFS

/-! The data model and the operations, embedded from the source. -/

/-- FileNameMaxLen from directory.h (not in the extracted sources; the
standard Nachos value, consistent with the 10-byte name buffers in
filesys.cc). -/
def fileNameMaxLen : Nat := 9

/-- NumDirEntries from filesys.cc line 65 (`#define NumDirEntries 64`). -/
def numDirEntries : Nat := 64

/-- NumSectors from disk.h (external collaborator; standard Nachos value
32 tracks times 32 sectors). -/
def numSectors : Nat := 1024

/-- SectorSize from disk.h (external collaborator; standard Nachos value). -/
def sectorSize : Nat := 128

/-- DirectorySector from filesys.cc line 59. -/
def directorySector : Int := 1

/-- FreeMapSector from filesys.cc line 58. -/
def freeMapSector : Int := 0

/-- Modelled from the spec: per-entry byte size used only to fix
DirectoryFileSize (sizeof(DirectoryEntry) with padding; directory.h is not
among the extracted sources). -/
def directoryEntrySize : Nat := 20

/-- DirectoryFileSize = sizeof(DirectoryEntry) * NumDirEntries. -/
def directoryFileSize : Nat := directoryEntrySize * numDirEntries

/-- A C string (no terminating NUL modelled). -/
abbrev Name := List Char

/-- DirectoryEntry from directory.h: inUse flag, bounded name, header
sector, and the MP4 subdirectory flag `dFlag`. -/
structure DirectoryEntry where
  inUse : Bool
  name : Name
  sector : Int
  dFlag : Bool
deriving DecidableEq, Repr

/-- A zeroed entry, as produced by the constructor's memset plus the
`inUse = FALSE` loop. -/
def emptyEntry : DirectoryEntry := ⟨false, [], 0, false⟩

/-- One directory table (the in-memory `DirectoryEntry table[tableSize]`). -/
abbrev DirTable := List DirectoryEntry

/-- The table built by `Directory::Directory(NumDirEntries)`: every entry
empty. -/
def emptyTable : DirTable := List.replicate numDirEntries emptyEntry

/-- strncmp(a, b, FileNameMaxLen) == 0, for NUL-free strings: the first
FileNameMaxLen characters coincide. -/
def nameMatch (a b : Name) : Bool :=
  a.take fileNameMaxLen == b.take fileNameMaxLen

/-- The scan predicate of `Directory::FindIndex`:
`table[i].inUse && !strncmp(table[i].name, name, FileNameMaxLen)`. -/
def entryMatches (n : Name) (e : DirectoryEntry) : Bool :=
  e.inUse && nameMatch e.name n

/-- Directory::FindIndex — position of the first inUse entry whose name
matches on the first FileNameMaxLen characters, or -1. -/
def dirFindIndex (t : DirTable) (n : Name) : Int :=
  match t.findIdx? (entryMatches n) with
  | some i => (i : Int)
  | none => -1

/-- The first entry found by the FindIndex scan (FindIndex followed by
`table[i]`, fused into one first-match scan). -/
def findEntry? (t : DirTable) (n : Name) : Option DirectoryEntry :=
  t.find? (entryMatches n)

/-- Directory::Find — the matching entry's sector, or -1. -/
def dirFind (t : DirTable) (n : Name) : Int :=
  match findEntry? t n with
  | some e => e.sector
  | none => -1

/-- Directory::GetFlag — the matching entry's dFlag; on a miss the C code
executes `return -1` in a bool-returning function, which converts to
`true`. -/
def dirGetFlag (t : DirTable) (n : Name) : Bool :=
  match findEntry? t n with
  | some e => e.dFlag
  | none => true

/-- The claiming loop of Directory::Add: overwrite the first slot with
`inUse == FALSE`, storing the strncpy-truncated name; `none` when every
slot is in use. -/
def dirAddAux (n : Name) (s : Int) (f : Bool) : DirTable → Option DirTable
  | [] => none
  | e :: rest =>
    if e.inUse then (dirAddAux n s f rest).map (e :: ·)
    else some ({ inUse := true, name := n.take fileNameMaxLen,
                 sector := s, dFlag := f } :: rest)

/-- Directory::Add — duplicate check via the FindIndex scan, then claim the
first free slot. `none` models returning FALSE (duplicate or full). -/
def dirAdd (t : DirTable) (n : Name) (s : Int) (f : Bool) : Option DirTable :=
  if (findEntry? t n).isSome then none else dirAddAux n s f t

/-- Directory::Remove — mark the first matching entry not-inUse (tombstone);
`none` models returning FALSE (name absent). -/
def dirRemove (t : DirTable) (n : Name) : Option DirTable :=
  match t.findIdx? (entryMatches n) with
  | some i =>
    some (t.set i { (t.getD i emptyEntry) with inUse := false })
  | none => none

/-- Directory::List — names of the inUse entries, in table order. -/
def dirList (t : DirTable) : List Name :=
  (t.filter (·.inUse)).map (·.name)

/-- Directory::FindFormRoot over component lists — the view used for the
entry points that pass their whole, caller-supplied path to FindFormRoot
(Open, Openfile, List). The special path "/" (no components) returns
DirectorySector without any lookup; otherwise the first component (with
its leading slash restored, as the code's `sprintf(buf, "/%s", cut)`) is
looked up by the same scan as FindIndex, and the first matching entry
decides: its sector if the path ends here, otherwise recurse into the
directory loaded from its sector. The entry's dFlag is never consulted.
`findFormRootStr` below is the exact string-level embedding; the lemma
`findFormRootStr_eq_findFormRoot` proves this component view is its
restriction to well-formed absolute paths. -/
def findFormRoot (tbls : Int → DirTable) : List Name → DirTable → Int
  | [], _ => directorySector
  | c :: rest, cur =>
    match cur.find? (entryMatches ('/' :: c)) with
    | none => -1
    | some e =>
      if rest = [] then e.sector
      else findFormRoot tbls rest (tbls e.sector)

/-- The strtok(name, "/") token walk: maximal runs of non-slash
characters, runs of slashes skipped. Fuel-structural so that concrete
states evaluate in the kernel; each step consumes at least one character,
so `splitSlash` (which starts the fuel at the string length) never
exhausts it. -/
def splitSlashAux : Nat → Name → List Name
  | 0, _ => []
  | _, [] => []
  | fuel + 1, c :: rest =>
    if c = '/' then splitSlashAux fuel rest
    else (c :: rest.takeWhile (· ≠ '/')) :: splitSlashAux fuel (rest.dropWhile (· ≠ '/'))

/-- All strtok tokens of a path. -/
def splitSlash (n : Name) : List Name := splitSlashAux n.length n

/-- The first strtok token of a string: skip leading slashes, take up to
the next slash; `none` when the string holds no token (strtok returns
NULL). -/
def firstToken (n : Name) : Option Name :=
  if (n.dropWhile (· = '/')).takeWhile (· ≠ '/') = [] then none
  else some ((n.dropWhile (· = '/')).takeWhile (· ≠ '/'))

/-- The parent-directory / leaf-name split shared by FileSystem::Create
and FileSystem::Remove (filesys.cc lines 198-219 and 368-389): tokenize
with strtok; `fileName` is "/" plus the LAST token; `length` accumulates
strlen(cut)+1 over every token AFTER THE FIRST (not over every token
before the last), with 0 becoming 1; `directory` is the first `length`
characters of the original path string. The two sums agree only when the
first and last components have equal length, so `directory` can cut a
component short (Remove("/ab/c") resolves "/a") or keep a trailing slash
(Create("/a/bc") resolves "/a/"). `none` models the token-less case
(empty or all-slash name), where the C code sprintf's a NULL pointer. -/
def parseParentLeaf (name : Name) : Option (Name × Name) :=
  match splitSlash name with
  | [] => none
  | c1 :: rest =>
    let fileName := '/' :: (rest.getLast?.getD c1)
    let length := rest.foldl (fun acc c => acc + (c.length + 1)) 0
    some (name.take (if length = 0 then 1 else length), fileName)

/-- Directory::FindFormRoot at the exact string level (filesys.cc
638-676), fuel-structural: the special string "/" returns
DirectorySector; otherwise the first strtok token `cut` is matched as
"/cut", and the remaining string is the original pointer advanced by
strlen(cut)+1 — faithful to `name += strlen(cut)+1`, including its
misalignment on runs of slashes. Each recursion drops at least two
characters, so the fuel `findFormRootStr` starts with is never
exhausted. -/
def findFormRootStrAux (tbls : Int → DirTable) : Nat → Name → DirTable → Int
  | 0, _, _ => -1
  | fuel + 1, name, cur =>
    if name = ['/'] then directorySector
    else
      match firstToken name with
      | none => -1
      | some cut =>
        match cur.find? (entryMatches ('/' :: cut)) with
        | none => -1
        | some e =>
          if name.drop (cut.length + 1) = [] then e.sector
          else findFormRootStrAux tbls fuel (name.drop (cut.length + 1)) (tbls e.sector)

/-- FindFormRoot on a raw path string. -/
def findFormRootStr (tbls : Int → DirTable) (name : Name) (cur : DirTable) : Int :=
  findFormRootStrAux tbls name.length name cur

/-- Render a component path to its absolute single-slash string form. -/
def renderPath (cs : List Name) : Name := cs.flatMap (fun c => '/' :: c)

/-- Modelled from the spec: the header collaborator's per-file record
(filehdr.h/cc are not among the extracted sources) — the data sectors the
header addresses and the sector of the next chained header (-1 for none),
per the contract `nextChainedHeaderSector() -> sector|none`. -/
structure FileHeaderRec where
  dataSectors : List Int
  next : Int
deriving DecidableEq, Repr

/-- A header record addressing nothing and chaining to nothing. -/
def emptyHeader : FileHeaderRec := ⟨[], -1⟩

/-- The on-disk state the coordinator manipulates: `tables s` is the data
of the file whose header is at sector `s`, read as a directory table;
`headers s` is the header record at sector `s`; `bitmap` is the persisted
free-sector bitmap (the data of the file at FreeMapSector). -/
structure FSState where
  tables : Int → DirTable
  headers : Int → FileHeaderRec
  bitmap : Int → Bool

/-- Pointwise update of a sector-indexed map. -/
def upd {α : Type} (f : Int → α) (s : Int) (v : α) : Int → α :=
  fun x => if x = s then v else f x

/-- Bitmap::FindAndSet's search half: the lowest sector in
[0, NumSectors) not marked used, or -1 (external collaborator,
`findFreeAndMark`). -/
def findFreeSector (bm : Int → Bool) : Int :=
  match (List.range numSectors).find? (fun i => !bm (i : Int)) with
  | some i => (i : Int)
  | none => -1

/-- Clear each sector of the list in the bitmap (a fold of
`freeMap->Clear`). -/
def clearAll (bm : Int → Bool) (l : List Int) : Int → Bool :=
  l.foldl (fun b s => upd b s false) bm

/-- Modelled from the spec: the header collaborator's
`allocate(bitmap, byteSize)` — claim one free sector per needed data
sector via repeated find-and-mark, failing when the bitmap is exhausted. -/
def allocSectors (bm : Int → Bool) : Nat → Option ((Int → Bool) × List Int)
  | 0 => some (bm, [])
  | k + 1 =>
    let s := findFreeSector bm
    if s = -1 then none
    else (allocSectors (upd bm s true) k).map (fun p => (p.1, s :: p.2))

/-- Modelled from the spec: FileHeader::Allocate(freeMap, size) — needs
ceil(size / SectorSize) data sectors; produces the updated in-memory
bitmap and the header record (no chaining is produced for the sizes the
coordinator requests). -/
def hdrAllocate (bm : Int → Bool) (size : Nat) : Option ((Int → Bool) × FileHeaderRec) :=
  (allocSectors bm ((size + sectorSize - 1) / sectorSize)).map
    (fun p => (p.1, ⟨p.2, -1⟩))

/-- The in-memory header chain loaded by FileHeader::FetchFrom and walked
by Remove's while loop: the sector of each header record reached from `s`
by following `next` until -1 (fuel-bounded; the C loop itself would not
terminate on a cyclic chain). -/
def chainSectors (hdrs : Int → FileHeaderRec) : Nat → Int → List Int
  | 0, _ => []
  | n + 1, s =>
    s :: (if (hdrs s).next = -1 then [] else chainSectors hdrs n (hdrs s).next)

/-- FileSystem::Create over a raw path string, with the source's own
parent split (`parseParentLeaf`) and string-level resolution.
`uninitSector` is the indeterminate initial value of the local `sector`
variable: on the duplicate-name branch the variable is never assigned,
yet the trailing `if (directoryFlag)` block (filesys.cc lines 254-261)
still runs and writes a fresh empty directory table to
`OpenFile(sector)` whenever the call asked for a directory — on the
success path and on every failure path reached after the parent
directory resolved. -/
def fsCreate (st : FSState) (name : Name) (initialSize : Nat)
    (directoryFlag : Bool) (uninitSector : Int) : FSState × Bool :=
  match parseParentLeaf name with
  | none => (st, false)
  | some (directory, fileName) =>
    let nowDirectorySector := findFormRootStr st.tables directory (st.tables directorySector)
    if nowDirectorySector ≥ 0 then
      let nowDirectory := st.tables nowDirectorySector
      let res : FSState × Bool × Int :=
        if dirFind nowDirectory fileName ≠ -1 then (st, false, uninitSector)
        else
          let s := findFreeSector st.bitmap
          if s = -1 then (st, false, s)
          else
            let bm1 := upd st.bitmap s true
            match dirAdd nowDirectory fileName s directoryFlag with
            | none => (st, false, s)
            | some nowDir1 =>
              let size := if directoryFlag then directoryFileSize else initialSize
              match hdrAllocate bm1 size with
              | none => (st, false, s)
              | some (bm2, hdr) =>
                ({ tables := upd st.tables nowDirectorySector nowDir1,
                   headers := upd st.headers s hdr,
                   bitmap := bm2 }, true, s)
      let st1 := res.1
      let success := res.2.1
      let sector := res.2.2
      if directoryFlag then
        ({ st1 with tables := upd st1.tables sector emptyTable }, success)
      else (st1, success)
    else (st, false)

/-- FileSystem::Remove over a raw path string, with the source's own
parent split (`parseParentLeaf`) and string-level resolution;
fuel-bounded because the C recursion is on ever-longer reconstructed
path strings. On fuel exhaustion the model fails without touching the
state. Each recursive call's path is the outer path string with the
stored entry name appended, exactly
`sprintf(temp, "%s%s", name, GetName(i))`. The snapshot
`traceDirectory` is fetched before the recursive removals and written
back after them, exactly as the code orders it. -/
def fsRemove : Nat → FSState → Name → Bool → FSState × Bool
  | 0, st, _, _ => (st, false)
  | fuel + 1, st, name, recFlag =>
    match parseParentLeaf name with
    | none => (st, false)
    | some (directory, fileName) =>
      let nowDirectorySector := findFormRootStr st.tables directory (st.tables directorySector)
      if nowDirectorySector = -1 then (st, false)
      else
        let nowDirectory := st.tables nowDirectorySector
        let sector := dirFind nowDirectory fileName
        let dFlag := dirGetFlag nowDirectory fileName
        if sector = -1 ∨ (dFlag ∧ ¬recFlag) then (st, false)
        else
          let st1 :=
            if dFlag ∧ recFlag then
              let traceDirectory := st.tables sector
              let stRec := traceDirectory.foldl
                (fun acc e =>
                  if e.inUse then (fsRemove fuel acc (name ++ e.name) recFlag).1
                  else acc) st
              { stRec with tables := upd stRec.tables sector traceDirectory }
            else st
          let chain := chainSectors st1.headers numSectors sector
          let bm1 := chain.foldl (fun b s => clearAll b ((st1.headers s).dataSectors)) st1.bitmap
          let bm2 := chain.foldl (fun b s => upd b s false) bm1
          let nowDir1 := (dirRemove nowDirectory fileName).getD nowDirectory
          ({ tables := upd st1.tables nowDirectorySector nowDir1,
             headers := st1.headers,
             bitmap := bm2 }, true)

/-- Directory::ListAll — emitted full names, in table order, descending
transiently into entries whose dFlag is set (fuel-bounded; the C recursion
is unbounded on cyclic directory graphs). -/
def listAll (tbls : Int → DirTable) : Nat → DirTable → Name → List Name
  | 0, _, _ => []
  | n + 1, t, head =>
    (t.filter (·.inUse)).flatMap (fun e =>
      (head ++ e.name) ::
        (if e.dFlag then listAll tbls n (tbls e.sector) (head ++ e.name) else []))

/-- FileSystem::List — resolve the whole path from the root, then load a
directory from whatever FindFormRoot returned (the sentinel -1 included:
the code never checks the resolution result) and emit its names. -/
def fsList (st : FSState) (cs : List Name) (recursiveListFlag : Bool) : List Name :=
  let sector := findFormRoot st.tables cs (st.tables directorySector)
  let directory := st.tables sector
  if recursiveListFlag then listAll st.tables numSectors directory []
  else dirList directory

/-- The open-file descriptor table `OpenFile *openFileTable[20]`: slot i
holds the sector of the file opened there, `none` for a NULL slot. -/
abbrev OpenTable := List (Option Int)

/-- The table size (the loop bound 20 in Openfile/Close). -/
def openTableSize : Nat := 20

/-- The slot-claiming loop of FileSystem::Openfile
(`for (i = 1; i < 20; i++)`): the lowest i ≥ 1 with a NULL slot, or -1.
Slot 0 is never examined. -/
def findFreeSlotAux (tbl : OpenTable) : Nat → Nat → Int
  | 0, _ => -1
  | fuel + 1, i =>
    if openTableSize ≤ i then -1
    else if (tbl.getD i none).isNone then (i : Int)
    else findFreeSlotAux tbl fuel (i + 1)

/-- The loop entry point: scan starts at slot 1. -/
def findFreeSlot (tbl : OpenTable) : Int :=
  findFreeSlotAux tbl openTableSize 1

/-- FileSystem::Openfile — resolve the path; when found, bind a new handle
in the lowest NULL slot numbered from 1 and return that slot (the code
returns the loop variable `i`, which equals the claimed id after the
break); -1 when the path is absent or no slot is NULL. -/
def fsOpenfile (st : FSState) (tbl : OpenTable) (cs : List Name) : OpenTable × Int :=
  let sector := findFormRoot st.tables cs (st.tables directorySector)
  if sector ≥ 0 then
    let id := findFreeSlot tbl
    if id = -1 then (tbl, -1)
    else (tbl.set id.toNat (some sector), id)
  else (tbl, -1)

/-- FileSystem::Close — succeeds (returns 1) exactly when 1 ≤ id < 20 and
the slot is non-NULL; it deletes the OpenFile object but never assigns
NULL to `openFileTable[id]`, so the table itself is unchanged. -/
def fsClose (tbl : OpenTable) (id : Int) : OpenTable × Int :=
  if 1 ≤ id ∧ id < (openTableSize : Int) ∧ (tbl.getD id.toNat none).isSome then
    (tbl, 1)
  else (tbl, -1)

/-- Replace every entry's dFlag according to `g`, leaving everything else
unchanged. -/
def mapFlags (g : Bool → Bool) (t : DirTable) : DirTable :=
  t.map (fun e => { e with dFlag := g e.dFlag })

/-- C8 (amended claim, as a definition following its words): Add fails
when some inUse entry's name agrees with the given name on the first
FileNameMaxLen characters, or when no slot has inUse = false; otherwise
it sets the first (lowest-index) empty slot to an inUse entry holding the
first FileNameMaxLen characters of the name, the given sector and the
given subdirectory flag. It takes no disk state and performs no
persistence. -/
def addSpec (t : DirTable) (n : Name) (s : Int) (f : Bool) : Option DirTable :=
  if t.any (fun e => e.inUse && e.name.take fileNameMaxLen == n.take fileNameMaxLen) then none
  else (t.findIdx? (fun e => !e.inUse)).map
    (fun i => t.set i ⟨true, n.take fileNameMaxLen, s, f⟩)

/-- No two simultaneously inUse entries of a table agree on their first
FileNameMaxLen characters (the comparison every lookup uses). -/
def uniqueNames (t : DirTable) : Prop :=
  t.Pairwise (fun a b => a.inUse = true → b.inUse = true → nameMatch a.name b.name = false)

/-- Every directory table on disk has unique inUse names. -/
def AllUnique (st : FSState) : Prop := ∀ s, uniqueNames (st.tables s)

/-- One structural operation of the coordinator: a Create or a Remove
call with its arguments. -/
inductive FSOp where
  | create (name : Name) (initialSize : Nat) (directoryFlag : Bool) (uninitSector : Int)
  | remove (name : Name) (recursiveRemoveFlag : Bool)

/-- Fuel given to each Remove call of a sequence (any bound works; the
preservation lemma holds for every fuel). -/
def removeFuel : Nat := numSectors

/-- Apply one coordinator operation to the disk. -/
def applyOp (st : FSState) : FSOp → FSState
  | FSOp.create nm sz f u => (fsCreate st nm sz f u).1
  | FSOp.remove nm r => (fsRemove removeFuel st nm r).1

/-- Apply a sequence of Create/Remove operations. -/
def applyOps (st : FSState) (ops : List FSOp) : FSState := ops.foldl applyOp st

/-! Concrete states used by counterexamples and witnesses. -/

/-- Pad a list of entries to a full NumDirEntries-sized table. -/
def mkTable (es : List DirectoryEntry) : DirTable :=
  es ++ List.replicate (numDirEntries - es.length) emptyEntry

/-- A root directory table with all 64 slots in use (distinct two-character
names whose second character has code 160 + i). -/
def fullRoot : DirTable :=
  (List.range numDirEntries).map
    (fun i => ⟨true, ['/', Char.ofNat (160 + i)], 100 + (i : Int), false⟩)

/-- State whose root directory is full and whose bitmap has exactly
sector 2 free; every other file reads as a one-entry table. -/
def c1st : FSState :=
  { tables := upd (fun _ => mkTable [⟨true, ['/', 'x'], 7, false⟩]) 1 fullRoot,
    headers := fun _ => emptyHeader,
    bitmap := fun s => !(s == 2) }

/-- Tables for the non-directory-descent counterexample: the root holds
"/a" as a plain file (dFlag false) whose sector 5 nevertheless reads as a
table holding "/b" at sector 7. -/
def c2tables : Int → DirTable :=
  upd (upd (fun _ => emptyTable) 1 (mkTable [⟨true, ['/', 'a'], 5, false⟩]))
      5 (mkTable [⟨true, ['/', 'b'], 7, true⟩])

/-- State with a single directory "/d" at sector 5. -/
def okst : FSState :=
  { tables := upd (fun _ => emptyTable) 1 (mkTable [⟨true, ['/', 'd'], 5, true⟩]),
    headers := fun _ => emptyHeader,
    bitmap := fun s => s == 0 || s == 1 || s == 5 }

/-- An all-NULL descriptor table. -/
def tb0 : OpenTable := List.replicate openTableSize none

/-- A descriptor table whose slot 1 is occupied. -/
def tbOne : OpenTable := tb0.set 1 (some 5)

/-- State with one directory "/d" (sector 5) containing one file "/x"
(sector 7); headers address no data blocks and chain to nothing. -/
def c3st : FSState :=
  { tables := upd (upd (fun _ => emptyTable) 1 (mkTable [⟨true, ['/', 'd'], 5, true⟩]))
                  5 (mkTable [⟨true, ['/', 'x'], 7, false⟩]),
    headers := fun _ => emptyHeader,
    bitmap := fun s => s == 0 || s == 1 || s == 5 || s == 7 }

/-- State with one file "/f" whose header at sector 9 chains to a second
header at sector 30. -/
def c7st : FSState :=
  { tables := upd (fun _ => emptyTable) 1 (mkTable [⟨true, ['/', 'f'], 9, false⟩]),
    headers := upd (upd (fun _ => emptyHeader) 9 ⟨[20, 21], 30⟩) 30 ⟨[22], -1⟩,
    bitmap := fun s =>
      s == 0 || s == 1 || s == 9 || s == 20 || s == 21 || s == 22 || s == 30 }

/-- A table holding the 9-character truncation that Add actually stored
for the 10-character name "/abcdefghY". -/
def c9table : DirTable :=
  mkTable [⟨true, ['/', 'a', 'b', 'c', 'd', 'e', 'f', 'g', 'h'], 42, false⟩]

/-! Helper lemmas. -/

/-- Reading an updated map at the updated sector. -/
lemma upd_self {α : Type} (f : Int → α) (s : Int) (v : α) : upd f s v s = v := by
  simp [upd]

/-- Reading an updated map elsewhere. -/
lemma upd_ne {α : Type} (f : Int → α) (s x : Int) (v : α) (h : x ≠ s) :
    upd f s v x = f x := by
  simp [upd, h]

/-- A fold preserves any invariant its step preserves. -/
lemma foldl_invariant {α β : Type} (P : α → Prop) (step : α → β → α) (l : List β)
    (hstep : ∀ a b, P a → P (step a b)) : ∀ a, P a → P (l.foldl step a) := by
  induction l with
  | nil => intro a h; exact h
  | cons e rest ih => intro a h; rw [List.foldl_cons]; exact ih _ (hstep a e h)

/-- A first-match scan succeeds exactly when some element satisfies the
predicate. -/
lemma find?_isSome_eq_any {α : Type} (p : α → Bool) (t : List α) :
    (t.find? p).isSome = t.any p := by
  induction t with
  | nil => rfl
  | cons e rest ih => cases hp : p e <;> simp [List.find?_cons, List.any_cons, hp, ih]

/-- The claiming loop returns -1 when every slot from `i` upward is
occupied. -/
lemma findFreeSlotAux_full (tbl : OpenTable) (fuel i : Nat)
    (h : ∀ j, i ≤ j → j < openTableSize → (tbl.getD j none).isSome = true) :
    findFreeSlotAux tbl fuel i = -1 := by
  induction fuel generalizing i with
  | zero => rfl
  | succ n ih =>
    rw [findFreeSlotAux]
    by_cases hi : openTableSize ≤ i
    · simp [hi]
    · have hocc := h i (le_refl i) (by omega)
      rcases Option.isSome_iff_exists.mp hocc with ⟨a, ha⟩
      simp only [if_neg hi, ha]
      simpa using ih (i + 1) (fun j hj1 hj2 => h j (by omega) hj2)

/-- The claiming loop returns the lowest free slot at or above its start
index, provided it has fuel to reach the table bound. -/
lemma findFreeSlotAux_finds (tbl : OpenTable) (k : Nat)
    (hk : k < openTableSize) (hfree : (tbl.getD k none).isNone = true) :
    ∀ fuel i, i ≤ k → openTableSize ≤ fuel + i →
    (∀ j, i ≤ j → j < k → (tbl.getD j none).isSome = true) →
    findFreeSlotAux tbl fuel i = (k : Int) := by
  intro fuel
  induction fuel with
  | zero => intro i h1 h2 _; omega
  | succ n ih =>
    intro i hik hfuel hbefore
    rw [findFreeSlotAux]
    have hi : ¬ openTableSize ≤ i := by omega
    simp only [if_neg hi]
    by_cases heq : i = k
    · subst heq; rw [if_pos hfree]
    · have hlt : i < k := lt_of_le_of_ne hik heq
      have hocc := hbefore i (le_refl i) hlt
      rcases Option.isSome_iff_exists.mp hocc with ⟨a, ha⟩
      simp only [ha, Option.isNone_some, Bool.false_eq_true, if_false]
      exact ih (i + 1) (by omega) (by omega) (fun j hj1 hj2 => hbefore j (by omega) hj2)

/-- The claiming loop never returns a slot below its start index. -/
lemma findFreeSlotAux_lb (tbl : OpenTable) :
    ∀ fuel i, findFreeSlotAux tbl fuel i = -1 ∨ (i : Int) ≤ findFreeSlotAux tbl fuel i := by
  intro fuel
  induction fuel with
  | zero => intro i; exact Or.inl rfl
  | succ n ih =>
    intro i
    rw [findFreeSlotAux]
    by_cases hi : openTableSize ≤ i
    · simp [hi]
    · simp only [if_neg hi]
      by_cases hfree : (tbl.getD i none).isNone = true
      · rw [if_pos hfree]; right; exact le_refl _
      · rw [if_neg hfree]
        rcases ih (i + 1) with h | h
        · exact Or.inl h
        · right; omega

/-- Truncating to FileNameMaxLen makes the scan predicates of two
prefix-equal query names coincide. -/
lemma entryMatches_congr {n1 n2 : Name}
    (h : n1.take fileNameMaxLen = n2.take fileNameMaxLen) :
    entryMatches n1 = entryMatches n2 := by
  funext e
  simp only [entryMatches, nameMatch, h]

/-- The claiming loop of Add fails exactly on a table with no free slot
(it never looks at names). -/
lemma dirAddAux_eq_none (n : Name) (s : Int) (f : Bool) :
    ∀ t : DirTable, dirAddAux n s f t = none ↔ ∀ e ∈ t, e.inUse = true := by
  intro t
  induction t with
  | nil => simp [dirAddAux]
  | cons e rest ih =>
    by_cases he : e.inUse
    · simp [dirAddAux, he, ih]
    · simp [dirAddAux, he]

/-- After a successful Add of `n1` in a table with no entry matching `n1`,
looking up any name that agrees with `n1` on the first FileNameMaxLen
characters finds the new entry and returns its sector. -/
lemma dirAddAux_find (n1 n2 : Name) (s : Int) (f : Bool)
    (h : n1.take fileNameMaxLen = n2.take fileNameMaxLen) :
    ∀ t t' : DirTable, (∀ e ∈ t, entryMatches n1 e = false) →
      dirAddAux n1 s f t = some t' → dirFind t' n2 = s := by
  intro t
  induction t with
  | nil => intro t' _ hadd; cases hadd
  | cons e rest ih =>
    intro t' hnodup hadd
    by_cases he : e.inUse
    · rw [dirAddAux, if_pos he] at hadd
      cases hrest : dirAddAux n1 s f rest with
      | none => rw [hrest] at hadd; cases hadd
      | some r =>
        rw [hrest] at hadd
        cases hadd
        have hm1 : entryMatches n1 e = false := hnodup e (List.mem_cons_self e rest)
        have hm2 : entryMatches n2 e = false := by
          rw [← entryMatches_congr h]; exact hm1
        rw [dirFind, findEntry?, List.find?_cons, hm2]
        exact ih r (fun x hx => hnodup x (List.mem_cons_of_mem e hx)) hrest
    · rw [dirAddAux, if_neg he] at hadd
      cases hadd
      have hm : entryMatches n2
          ⟨true, n1.take fileNameMaxLen, s, f⟩ = true := by
        simp only [entryMatches, nameMatch, List.take_take, Nat.min_self,
          Bool.true_and, h]
        exact beq_self_eq_true _
      rw [dirFind, findEntry?, List.find?_cons, hm]

/-- The claiming loop equals "set the first index whose entry is free". -/
lemma dirAddAux_eq_firstFree (n : Name) (s : Int) (f : Bool) :
    ∀ t : DirTable, dirAddAux n s f t
      = (t.findIdx? (fun e => !e.inUse)).map
          (fun i => t.set i ⟨true, n.take fileNameMaxLen, s, f⟩) := by
  intro t
  induction t with
  | nil => rfl
  | cons e rest ih =>
    by_cases he : e.inUse
    · rw [dirAddAux, if_pos he, List.findIdx?_cons]
      simp only [he, Bool.not_true, Bool.false_eq_true, if_false, List.findIdx?_succ]
      rw [ih]
      cases hr : rest.findIdx? (fun e => !e.inUse) with
      | none => rfl
      | some i => simp [List.set_cons_succ]
    · rw [dirAddAux, if_neg he, List.findIdx?_cons]
      simp [he]

/-- Truncating the query name does not change a match. -/
lemma nameMatch_take (a n : Name) :
    nameMatch a (n.take fileNameMaxLen) = nameMatch a n := by
  simp [nameMatch, List.take_take]

/-- Name matching is symmetric. -/
lemma nameMatch_symm (a b : Name) : nameMatch a b = nameMatch b a := by
  simp only [nameMatch]
  by_cases h : a.take fileNameMaxLen = b.take fileNameMaxLen
  · rw [h]
  · have h1 : (a.take fileNameMaxLen == b.take fileNameMaxLen) = false := by
      simpa using h
    have h2 : (b.take fileNameMaxLen == a.take fileNameMaxLen) = false := by
      simpa using (Ne.symm h)
    rw [h1, h2]

/-- Remove never writes any file header: across the whole call, recursion
included, the headers map is untouched. -/
lemma fsRemove_headers : ∀ (fuel : Nat) (st : FSState) (nm : Name) (r : Bool),
    (fsRemove fuel st nm r).1.headers = st.headers := by
  intro fuel
  induction fuel with
  | zero => intro st nm r; rfl
  | succ n ih =>
    intro st nm r
    rw [fsRemove]
    cases hparse : parseParentLeaf nm with
    | none => rfl
    | some df =>
      obtain ⟨d, f⟩ := df
      simp only
      split
      · rfl
      · split
        · rfl
        · simp only
          split
          · refine foldl_invariant (fun a => a.headers = st.headers) _ _ ?_ st rfl
            intro a b hPa
            by_cases hb : b.inUse = true <;>
              simp only [hb, if_true, if_false, ih, hPa, Bool.false_eq_true]
          · rfl

/-- A fold of bitmap clears never resurrects a cleared sector. -/
lemma clear_fold_false (l : List Int) : ∀ (bm : Int → Bool) (x : Int), bm x = false →
    (l.foldl (fun b s => upd b s false) bm) x = false := by
  induction l with
  | nil => intro bm x h; exact h
  | cons s rest ih =>
    intro bm x h
    rw [List.foldl_cons]
    apply ih
    by_cases hx : x = s
    · subst hx; rw [upd_self]
    · rw [upd_ne _ _ _ _ hx]; exact h

/-- A fold of bitmap clears clears every listed sector. -/
lemma clear_fold_mem (l : List Int) : ∀ (bm : Int → Bool) (x : Int), x ∈ l →
    (l.foldl (fun b s => upd b s false) bm) x = false := by
  induction l with
  | nil => intro bm x h; cases h
  | cons s rest ih =>
    intro bm x hx
    rw [List.foldl_cons]
    rcases List.mem_cons.mp hx with rfl | h
    · exact clear_fold_false rest _ x (upd_self _ _ _)
    · exact ih _ x h

lemma uniqueNames_emptyTable : uniqueNames emptyTable := by
  unfold uniqueNames
  decide

/-- Membership in the table produced by the Add claiming loop. -/
lemma dirAddAux_mem (n : Name) (s : Int) (f : Bool) :
    ∀ t t' b, dirAddAux n s f t = some t' → b ∈ t' →
      b ∈ t ∨ b = ⟨true, n.take fileNameMaxLen, s, f⟩ := by
  intro t
  induction t with
  | nil => intro t' b h _; cases h
  | cons e rest ih =>
    intro t' b h hb
    by_cases he : e.inUse
    · rw [dirAddAux, if_pos he] at h
      cases hrest : dirAddAux n s f rest with
      | none => rw [hrest] at h; cases h
      | some r =>
        rw [hrest] at h
        cases h
        rcases List.mem_cons.mp hb with rfl | hbr
        · exact Or.inl (List.mem_cons_self _ _)
        · rcases ih r b hrest hbr with h1 | h1
          · exact Or.inl (List.mem_cons_of_mem _ h1)
          · exact Or.inr h1
    · rw [dirAddAux, if_neg he] at h
      cases h
      rcases List.mem_cons.mp hb with rfl | hbr
      · exact Or.inr rfl
      · exact Or.inl (List.mem_cons_of_mem _ hbr)

/-- The claiming loop preserves name uniqueness when the added name
matches no inUse entry of the table. -/
lemma uniqueNames_dirAddAux (n : Name) (s : Int) (f : Bool) :
    ∀ t t', (∀ e ∈ t, entryMatches n e = false) → uniqueNames t →
      dirAddAux n s f t = some t' → uniqueNames t' := by
  intro t
  induction t with
  | nil => intro t' _ _ h; cases h
  | cons e rest ih =>
    intro t' hnodup hu h
    rcases List.pairwise_cons.mp hu with ⟨hhead, htail⟩
    by_cases he : e.inUse
    · rw [dirAddAux, if_pos he] at h
      cases hrest : dirAddAux n s f rest with
      | none => rw [hrest] at h; cases h
      | some r =>
        rw [hrest] at h
        cases h
        refine List.pairwise_cons.mpr ⟨?_, ?_⟩
        · intro b hb _ hbU
          rcases dirAddAux_mem n s f rest r b hrest hb with h1 | h1
          · exact hhead b h1 he hbU
          · subst h1
            have := hnodup e (List.mem_cons_self _ _)
            rw [entryMatches, he, Bool.true_and] at this
            rw [nameMatch_take]
            exact this
        · exact ih r (fun x hx => hnodup x (List.mem_cons_of_mem _ hx)) htail hrest
    · rw [dirAddAux, if_neg he] at h
      cases h
      refine List.pairwise_cons.mpr ⟨?_, ?_⟩
      · intro b hb _ hbU
        have := hnodup b (List.mem_cons_of_mem _ hb)
        rw [entryMatches, hbU, Bool.true_and] at this
        rw [nameMatch_symm, nameMatch_take]
        exact this
      · exact htail

/-- Directory::Add preserves name uniqueness. -/
lemma uniqueNames_dirAdd (t t' : DirTable) (n : Name) (s : Int) (f : Bool)
    (hu : uniqueNames t) (h : dirAdd t n s f = some t') : uniqueNames t' := by
  rw [dirAdd] at h
  by_cases hdup : (findEntry? t n).isSome
  · rw [if_pos hdup] at h; cases h
  · rw [if_neg hdup] at h
    have hnone : t.find? (entryMatches n) = none := by
      rw [findEntry?] at hdup
      cases hf : t.find? (entryMatches n) with
      | none => rfl
      | some e => rw [hf] at hdup; exact absurd rfl hdup
    refine uniqueNames_dirAddAux n s f t t' ?_ hu h
    intro e he
    have := List.find?_eq_none.mp hnone e he
    simpa using this

/-- Setting a slot to a not-inUse entry preserves name uniqueness. -/
lemma uniqueNames_set_notInUse :
    ∀ (t : DirTable) (i : Nat) (e : DirectoryEntry), uniqueNames t → e.inUse = false →
      uniqueNames (t.set i e) := by
  intro t
  induction t with
  | nil => intro i e _ _; simp [uniqueNames]
  | cons a rest ih =>
    intro i e hu he
    rcases List.pairwise_cons.mp hu with ⟨hhead, htail⟩
    cases i with
    | zero =>
      refine List.pairwise_cons.mpr ⟨?_, htail⟩
      intro b _ heU _
      rw [he] at heU; cases heU
    | succ j =>
      rw [List.set_cons_succ]
      refine List.pairwise_cons.mpr ⟨?_, ih j e htail he⟩
      intro b hb haU hbU
      rcases List.mem_or_eq_of_mem_set hb with h1 | h1
      · exact hhead b h1 haU hbU
      · subst h1; rw [he] at hbU; cases hbU

/-- Directory::Remove (as used in the coordinator, table unchanged on a
miss) preserves name uniqueness. -/
lemma uniqueNames_dirRemove (t : DirTable) (n : Name)
    (hu : uniqueNames t) : uniqueNames ((dirRemove t n).getD t) := by
  rw [dirRemove]
  cases h : t.findIdx? (entryMatches n) with
  | none => exact hu
  | some i => exact uniqueNames_set_notInUse t i _ hu rfl

/-- Updating one sector with a unique-named table preserves the disk-wide
invariant. -/
lemma allUnique_upd (f : Int → DirTable) (x : Int) (v : DirTable)
    (h : ∀ s, uniqueNames (f s)) (hv : uniqueNames v) :
    ∀ s, uniqueNames (upd f x v s) := by
  intro s
  by_cases hs : s = x
  · subst hs; rw [upd_self]; exact hv
  · rw [upd_ne _ _ _ _ hs]; exact h s

/-- Create preserves the disk-wide uniqueness invariant: every table it
persists is an Add-result of a unique table or a fresh empty table. -/
lemma allUnique_fsCreate (st : FSState) (nm : Name) (sz : Nat) (flag : Bool)
    (u : Int) (h : AllUnique st) : AllUnique (fsCreate st nm sz flag u).1 := by
  rw [fsCreate]
  cases hparse : parseParentLeaf nm with
  | none => exact h
  | some df =>
    obtain ⟨d, f⟩ := df
    simp only
    split
    · -- parent resolved
      split
      · -- directoryFlag: the trailing empty-table write
        refine allUnique_upd _ _ _ ?_ uniqueNames_emptyTable
        -- the inner res state
        split
        · exact h
        · split
          · exact h
          · split
            · exact h
            · next nowDir1 hadd =>
              split
              · exact h
              · next bm2 hdr halloc =>
                exact allUnique_upd _ _ _ h (uniqueNames_dirAdd _ _ _ _ _ (h _) hadd)
      · split
        · exact h
        · split
          · exact h
          · split
            · exact h
            · next nowDir1 hadd =>
              split
              · exact h
              · next bm2 hdr halloc =>
                exact allUnique_upd _ _ _ h (uniqueNames_dirAdd _ _ _ _ _ (h _) hadd)
    · exact h

/-- Remove preserves the disk-wide uniqueness invariant, for every fuel:
every table it persists is a previously-read unique table, a tombstoned
version of one, or the pre-recursion snapshot of one. -/
lemma allUnique_fsRemove : ∀ (fuel : Nat) (st : FSState) (nm : Name) (r : Bool),
    AllUnique st → AllUnique (fsRemove fuel st nm r).1 := by
  intro fuel
  induction fuel with
  | zero => intro st nm r h; exact h
  | succ n ih =>
    intro st nm r h
    rw [fsRemove]
    cases hparse : parseParentLeaf nm with
    | none => exact h
    | some df =>
      obtain ⟨d, f⟩ := df
      simp only
      split
      · exact h
      · split
        · exact h
        · simp only
          split
          · -- recursive branch
            refine allUnique_upd _ _ _ ?_ (uniqueNames_dirRemove _ _ (h _))
            refine allUnique_upd _ _ _ ?_ (h _)
            refine foldl_invariant AllUnique _ _ ?_ st h
            intro a b ha
            by_cases hb : b.inUse = true
            · simp only [hb, if_true]
              exact ih _ _ _ ha
            · simp only [hb, Bool.false_eq_true, if_false]
              exact ha
          · exact allUnique_upd _ _ _ h (uniqueNames_dirRemove _ _ (h _))

/-- The starting state okst satisfies the invariant. -/
lemma okst_allUnique : AllUnique okst := by
  intro s
  show uniqueNames (upd (fun _ => emptyTable) 1 (mkTable [⟨true, ['/', 'd'], 5, true⟩]) s)
  by_cases hs : s = 1
  · subst hs; rw [upd_self]; unfold uniqueNames; decide
  · rw [upd_ne _ _ _ _ hs]; exact uniqueNames_emptyTable


/-- takeWhile passes through a block whose members all satisfy the
predicate. -/
lemma takeWhile_append_all {α : Type} (p : α → Bool) :
    ∀ (l₁ l₂ : List α), (∀ x ∈ l₁, p x = true) →
      (l₁ ++ l₂).takeWhile p = l₁ ++ l₂.takeWhile p := by
  intro l₁
  induction l₁ with
  | nil => intro l₂ _; rfl
  | cons a l ih =>
    intro l₂ h
    rw [List.cons_append, List.takeWhile_cons, if_pos (h a (List.mem_cons_self _ _)),
      ih l₂ (fun x hx => h x (List.mem_cons_of_mem _ hx)), List.cons_append]

/-- One unfolding step of renderPath. -/
lemma renderPath_cons (c : Name) (rest : List Name) :
    renderPath (c :: rest) = '/' :: (c ++ renderPath rest) := rfl

/-- Fuel-generalized agreement of the string-level resolver with the
component-level one on rendered well-formed paths. -/
lemma findFormRootStrAux_eq_findFormRoot (tbls : Int → DirTable) :
    ∀ (cs : List Name) (fuel : Nat) (cur : DirTable), cs ≠ [] →
      (∀ c ∈ cs, c ≠ [] ∧ ∀ ch ∈ c, ch ≠ '/') →
      (renderPath cs).length ≤ fuel →
      findFormRootStrAux tbls fuel (renderPath cs) cur = findFormRoot tbls cs cur := by
  intro cs
  induction cs with
  | nil => intro fuel cur h; exact absurd rfl h
  | cons c rest ih =>
    intro fuel cur _ hwf hfuel
    obtain ⟨hc, hslash⟩ := hwf c (List.mem_cons_self _ _)
    obtain ⟨ch, c', rfl⟩ : ∃ ch c', c = ch :: c' := by
      cases c with
      | nil => exact absurd rfl hc
      | cons ch c' => exact ⟨ch, c', rfl⟩
    have hch : ch ≠ '/' := hslash ch (List.mem_cons_self _ _)
    rw [renderPath_cons] at hfuel ⊢
    cases fuel with
    | zero => exfalso; simp at hfuel
    | succ f =>
      rw [findFormRootStrAux]
      have hne1 : (('/' : Char) :: ((ch :: c') ++ renderPath rest)) ≠ ['/'] := by
        simp
      rw [if_neg hne1]
      have hdropW : (('/' : Char) :: ((ch :: c') ++ renderPath rest)).dropWhile (· = '/')
          = (ch :: c') ++ renderPath rest := by
        rw [List.dropWhile_cons, if_pos (by simp), List.cons_append, List.dropWhile_cons,
          if_neg (by simp [hch])]
      have htakeW : (((ch :: c') ++ renderPath rest)).takeWhile (· ≠ '/') = ch :: c' := by
        rw [takeWhile_append_all (· ≠ '/') (ch :: c') (renderPath rest)
          (fun x hx => by simp [hslash x hx])]
        cases rest with
        | nil => simp [renderPath]
        | cons c2 rest' => rw [renderPath_cons, List.takeWhile_cons, if_neg (by simp)]; simp
      have htok : firstToken ('/' :: ((ch :: c') ++ renderPath rest)) = some (ch :: c') := by
        rw [firstToken, hdropW, htakeW]
        simp
      have hdrop : (('/' : Char) :: ((ch :: c') ++ renderPath rest)).drop ((ch :: c').length + 1)
          = renderPath rest := by
        simp only [List.drop_succ_cons]
        exact List.drop_left (ch :: c') (renderPath rest)
      rw [htok]
      dsimp only
      rw [hdrop]
      have hlen : (renderPath rest).length ≤ f := by
        simp only [List.length_cons, List.length_append] at hfuel
        omega
      simp only [findFormRoot]
      cases hfind : cur.find? (entryMatches ('/' :: (ch :: c'))) with
      | none => rfl
      | some e =>
        dsimp only
        cases rest with
        | nil => simp [renderPath]
        | cons c2 rest' =>
          have hrne : renderPath (c2 :: rest') ≠ [] := by
            rw [renderPath_cons]; simp
          rw [if_neg hrne, if_neg (by simp : ¬ (c2 :: rest' : List Name) = [])]
          exact ih f (tbls e.sector) (by simp)
            (fun x hx => hwf x (List.mem_cons_of_mem _ hx)) hlen


/-- FindFormRoot's special case for the path "/" at the string level. -/
lemma findFormRootStr_root (tbls : Int → DirTable) (cur : DirTable) :
    findFormRootStr tbls ['/'] cur = directorySector := rfl

/-- On a well-formed absolute component path (nonempty, slash-free
components), the exact string-level resolver agrees with the
component-level view used by the Open and List entry points; together
with `findFormRootStr_root` this exhibits the component view as the
string resolver's restriction to well-formed paths. -/
lemma findFormRootStr_eq_findFormRoot (tbls : Int → DirTable) (cs : List Name)
    (cur : DirTable) (h0 : cs ≠ [])
    (hwf : ∀ c ∈ cs, c ≠ [] ∧ ∀ ch ∈ c, ch ≠ '/') :
    findFormRootStr tbls (renderPath cs) cur = findFormRoot tbls cs cur :=
  findFormRootStrAux_eq_findFormRoot tbls cs (renderPath cs).length cur h0 hwf (le_refl _)

/-- The split's skew at unequal first/last component lengths, pinned at
concrete inputs: Remove("/ab/c") resolves the prefix "/a" (cutting the
first component short), Create("/a/bc") resolves "/a/" (keeping the
trailing slash, which FindFormRoot then resolves to the root), and equal
lengths give the true parent "/ab". -/
lemma parseParentLeaf_skew :
    parseParentLeaf ['/', 'a', 'b', '/', 'c'] = some (['/', 'a'], ['/', 'c'])
    ∧ parseParentLeaf ['/', 'a', '/', 'b', 'c'] = some (['/', 'a', '/'], ['/', 'b', 'c'])
    ∧ parseParentLeaf ['/', 'a', 'b', '/', 'c', 'd'] = some (['/', 'a', 'b'], ['/', 'c', 'd']) := by
  decide

/-! Claim theorems and their witnesses. -/

/-- C1 (failing input): on a state whose root directory is full and whose
bitmap has sector 2 free, `Create("/d", 0, isDirectory = true)` fails
(directory full), yet the call still persists a freshly-constructed empty
directory table to disk at the just-probed sector 2 — the trailing
`if (directoryFlag)` block of filesys.cc (lines 254-261) runs regardless
of `success`, contradicting both the claim and the file's own header
comment that a failed operation discards its changes without writing
them back. -/
theorem create_failed_call_still_writes_child_table :
    (fsCreate c1st ['/', 'd'] 0 true 0).2 = false
    ∧ (fsCreate c1st ['/', 'd'] 0 true 0).1.tables 2 = emptyTable
    ∧ c1st.tables 2 ≠ emptyTable := by decide

/-- C2 (counterexample): in `c2tables` the root entry "/a" is not a
subdirectory (`dFlag = false`) and "a" is a non-final component of the
path a/b, yet FindFormRoot does not fail: it descends through the file
entry and returns sector 7. -/
theorem findFormRoot_descends_through_file :
    dirGetFlag (c2tables 1) ['/', 'a'] = false
    ∧ findFormRoot c2tables [['a'], ['b']] (c2tables 1) = 7 := by decide

/-- C2 (amended): path resolution never consults the isSubdirectory flag —
its result is invariant under arbitrarily rewriting every dFlag on disk
and in the current table — and it returns the not-found sentinel -1
whenever the leading component is absent from the table being searched. -/
theorem findFormRoot_never_consults_dFlag (g : Bool → Bool) (tbls : Int → DirTable)
    (cs : List Name) (cur : DirTable) :
    (findFormRoot (fun s => mapFlags g (tbls s)) cs (mapFlags g cur)
      = findFormRoot tbls cs cur)
    ∧ (∀ c rest, cs = c :: rest →
        cur.find? (entryMatches ('/' :: c)) = none →
        findFormRoot tbls cs cur = -1) := by
  induction cs generalizing cur with
  | nil => exact ⟨rfl, by intro c rest h _; cases h⟩
  | cons c rest ih =>
    constructor
    · have hp : (entryMatches ('/' :: c)) ∘ (fun e => { e with dFlag := g e.dFlag })
          = entryMatches ('/' :: c) := by
        funext e; rfl
      simp only [findFormRoot, mapFlags, List.find?_map, hp]
      cases hfind : cur.find? (entryMatches ('/' :: c)) with
      | none => rfl
      | some e =>
        simp only [Option.map_some']
        by_cases hr : rest = []
        · simp [hr]
        · simp only [hr, if_neg hr]
          exact (ih (tbls e.sector)).1
    · intro c' rest' hcs hnone
      cases hcs
      simp only [findFormRoot, hnone]

/-- C2 (amended, witness): the flag-invariance and the not-found case of
`findFormRoot_never_consults_dFlag` at concrete inputs. -/
theorem findFormRoot_never_consults_dFlag_witness :
    (findFormRoot (fun s => mapFlags not (c2tables s)) [['a'], ['b']]
        (mapFlags not (c2tables 1))
      = findFormRoot c2tables [['a'], ['b']] (c2tables 1))
    ∧ findFormRoot c2tables [['z']] (c2tables 1) = -1 :=
  ⟨(findFormRoot_never_consults_dFlag not c2tables [['a'], ['b']] (c2tables 1)).1,
   (findFormRoot_never_consults_dFlag not c2tables [['z']] (c2tables 1)).2
     ['z'] [] rfl (by decide)⟩

/-- C3 (counterexample): recursively removing "/d" succeeds, yet the table
written back to the child's sector 5 is the pre-recursion snapshot — it
still equals the original table and still contains an inUse entry, not the
claimed "now-emptied child table (with no inUse entries)":
`traceDirectory` is fetched before the recursive removals (filesys.cc
line 410) and written back unmodified after them (line 419), while the
recursive calls emptied the on-disk copy behind its back. -/
theorem remove_recursive_persists_stale_child_table :
    (fsRemove 3 c3st ['/', 'd'] true).2 = true
    ∧ ((fsRemove 3 c3st ['/', 'd'] true).1.tables 5).any (·.inUse) = true
    ∧ (fsRemove 3 c3st ['/', 'd'] true).1.tables 5 = c3st.tables 5 := by decide

/-- C3 (amended): for a recursive Remove of a subdirectory entry — the
path splitting into `(directory, fileName)` exactly as the source's
token loop computes it, the parent prefix resolving to `nds`, the target
at sector `sec`, parent and child at different sectors — the outer call
succeeds, and the table left on disk at the child's sector is the
snapshot taken before the recursive sub-removals — `st.tables sec`
unchanged, entries still inUse — not an emptied table. -/
theorem remove_recursive_writes_preRecursion_snapshot
    (fuel : Nat) (st : FSState) (nm directory fileName : Name) (nds sec : Int)
    (hparse : parseParentLeaf nm = some (directory, fileName))
    (hnds : findFormRootStr st.tables directory (st.tables directorySector) = nds)
    (hnds1 : nds ≠ -1)
    (hsec : dirFind (st.tables nds) fileName = sec)
    (hsec1 : sec ≠ -1)
    (hflag : dirGetFlag (st.tables nds) fileName = true)
    (hne : nds ≠ sec) :
    (fsRemove (fuel + 1) st nm true).2 = true
    ∧ (fsRemove (fuel + 1) st nm true).1.tables sec = st.tables sec := by
  rw [fsRemove, hparse]
  simp only [hnds, if_neg hnds1, hsec, hflag]
  have hg : ¬ (sec = -1 ∨ (True ∧ ¬ True)) := by
    simp [hsec1]
  rw [if_neg hg, if_pos (⟨trivial, trivial⟩ : True ∧ True)]
  refine ⟨rfl, ?_⟩
  simp only [upd_ne _ _ _ _ (Ne.symm hne), upd_self]

/-- C3 (amended, witness): removing "/d" recursively on `c3st` succeeds
and leaves the pre-recursion snapshot at the child's sector 5. -/
theorem remove_recursive_writes_preRecursion_snapshot_witness :
    (fsRemove 3 c3st ['/', 'd'] true).2 = true
    ∧ (fsRemove 3 c3st ['/', 'd'] true).1.tables 5 = c3st.tables 5 :=
  remove_recursive_writes_preRecursion_snapshot 2 c3st ['/', 'd'] ['/'] ['/', 'd'] 1 5
    (by decide) (by decide) (by decide) (by decide) (by decide) (by decide) (by decide)

/-- C4 (failing input): with slot 1 occupied, Close(1) reports success yet
leaves the descriptor table unchanged — `delete openFileTable[id]` is never
followed by a NULL assignment (filesys.cc lines 334-342) — so a subsequent
Openfile claims slot 2 rather than reusing slot 1; no slot became
available. The failure cases (unoccupied slot, id 0, id out of bounds)
do return -1 as the claim says. -/
theorem close_never_frees_slot :
    (fsClose tbOne 1).2 = 1
    ∧ (fsClose tbOne 1).1 = tbOne
    ∧ (fsOpenfile okst tbOne [['d']]).2 = 2
    ∧ (fsOpenfile okst tb0 [['d']]).2 = 1
    ∧ (fsClose tb0 1).2 = -1
    ∧ (fsClose tbOne 0).2 = -1
    ∧ (fsClose tbOne 25).2 = -1 := by decide

/-- C5: after every sequence of Create and Remove operations on a disk
whose tables all have unique inUse names, every directory table still has
no two simultaneously inUse entries agreeing on their first
FileNameMaxLen characters — Add refuses duplicates, Remove only clears
inUse bits, and every table either operation persists is derived from a
unique one (or is empty). -/
theorem create_remove_preserve_name_uniqueness (ops : List FSOp) (st : FSState)
    (h : AllUnique st) : AllUnique (applyOps st ops) := by
  refine foldl_invariant AllUnique applyOp ops ?_ st h
  intro a b ha
  cases b with
  | create cs sz f u => exact allUnique_fsCreate a cs sz f u ha
  | remove cs r => exact allUnique_fsRemove removeFuel a cs r ha

/-- C5 (witness): a concrete sequence — create the file d/y, then remove
the whole directory d recursively — keeps every table's names unique. -/
theorem create_remove_preserve_name_uniqueness_witness :
    AllUnique (applyOps okst
      [FSOp.create ['/', 'd', '/', 'y'] 10 false 0, FSOp.remove ['/', 'd'] true]) :=
  create_remove_preserve_name_uniqueness _ okst okst_allUnique

/-- C6: Openfile fails (returns -1, table untouched) when the path does
not resolve or when every slot 1..19 is occupied; otherwise it claims the
lowest-numbered free slot — slots are numbered from 1 — binds a handle to
the resolved sector there and returns that slot number; and slot 0 is
never allocated (it is unchanged by every call). -/
theorem openfile_claims_lowest_free_slot (st : FSState) (tbl : OpenTable) (cs : List Name) :
    (findFormRoot st.tables cs (st.tables directorySector) < 0 →
       fsOpenfile st tbl cs = (tbl, -1))
    ∧ (0 ≤ findFormRoot st.tables cs (st.tables directorySector) →
       (∀ j, 1 ≤ j → j < openTableSize → (tbl.getD j none).isSome = true) →
       fsOpenfile st tbl cs = (tbl, -1))
    ∧ (∀ k : Nat, 0 ≤ findFormRoot st.tables cs (st.tables directorySector) →
       1 ≤ k → k < openTableSize → (tbl.getD k none).isNone = true →
       (∀ j, 1 ≤ j → j < k → (tbl.getD j none).isSome = true) →
       fsOpenfile st tbl cs
         = (tbl.set k (some (findFormRoot st.tables cs (st.tables directorySector))), (k : Int)))
    ∧ (fsOpenfile st tbl cs).1.getD 0 none = tbl.getD 0 none := by
  refine ⟨?_, ?_, ?_, ?_⟩
  · intro h
    rw [fsOpenfile]
    simp only [if_neg (by omega : ¬ findFormRoot st.tables cs (st.tables directorySector) ≥ 0)]
  · intro h hfull
    have hslot : findFreeSlot tbl = -1 :=
      findFreeSlotAux_full tbl openTableSize 1 hfull
    rw [fsOpenfile]
    simp only [if_pos (by omega : findFormRoot st.tables cs (st.tables directorySector) ≥ 0),
      findFreeSlot] at *
    simp [hslot]
  · intro k h h1 h2 hfree hbefore
    have hslot : findFreeSlot tbl = (k : Int) :=
      findFreeSlotAux_finds tbl k h2 hfree openTableSize 1 h1 (by omega) hbefore
    rw [fsOpenfile]
    simp only [if_pos (by omega : findFormRoot st.tables cs (st.tables directorySector) ≥ 0)]
    rw [hslot]
    have hk1 : ¬ ((k : Int) = -1) := by omega
    simp only [if_neg hk1, Int.toNat_natCast]
  · rw [fsOpenfile]
    by_cases hs : findFormRoot st.tables cs (st.tables directorySector) ≥ 0
    · simp only [if_pos hs]
      by_cases hid : findFreeSlot tbl = -1
      · simp [hid]
      · simp only [if_neg hid]
        rcases findFreeSlotAux_lb tbl openTableSize 1 with h | h
        · exact absurd h hid
        · have hne : (findFreeSlot tbl).toNat ≠ 0 := by
            unfold findFreeSlot at *
            omega
          simp only [List.getD_eq_getElem?_getD]
          rw [List.getElem?_set_ne hne]
    · simp [hs]

/-- C6 (witness): on a table whose slot 1 is occupied, opening "/d" on
`okst` claims slot 2 and returns 2. -/
theorem openfile_claims_lowest_free_slot_witness :
    fsOpenfile okst tbOne [['d']] = (tbOne.set 2 (some 5), 2) := by
  have hs : findFormRoot okst.tables [['d']] (okst.tables directorySector) = 5 := by decide
  have h := (openfile_claims_lowest_free_slot okst tbOne [['d']]).2.2.1 2
    (by rw [hs]; decide) (by decide) (by decide) (by decide)
    (fun j hj1 hj2 => by
      have : j = 1 := by omega
      subst this; decide)
  rw [hs] at h
  exact h

/-- C7: a Remove whose target resolves (parent `nds`, target sector `sec`,
and the subdirectory guard passes) succeeds, and in the bitmap it
persists, every header sector of the target's chain — the leaf header's
sector `sec` and every sector reached by following the chain links — is
cleared: the while loop of filesys.cc lines 430-434 walks the whole
chain. The header collaborator (filehdr) is modelled from the spec's
chain contract. -/
theorem remove_clears_whole_header_chain
    (fuel : Nat) (st : FSState) (nm directory fileName : Name) (nds sec : Int) (recFlag : Bool)
    (hparse : parseParentLeaf nm = some (directory, fileName))
    (hnds : findFormRootStr st.tables directory (st.tables directorySector) = nds)
    (hnds1 : nds ≠ -1)
    (hsec : dirFind (st.tables nds) fileName = sec)
    (hsec1 : sec ≠ -1)
    (hflag : dirGetFlag (st.tables nds) fileName = true → recFlag = true) :
    (fsRemove (fuel + 1) st nm recFlag).2 = true
    ∧ ∀ x ∈ chainSectors st.headers numSectors sec,
        (fsRemove (fuel + 1) st nm recFlag).1.bitmap x = false := by
  rw [fsRemove, hparse]
  simp only [hnds, if_neg hnds1, hsec]
  have hg : ¬ (sec = -1 ∨ (dirGetFlag (st.tables nds) fileName = true ∧ ¬ recFlag = true)) := by
    rintro (h | ⟨hf, hr⟩)
    · exact hsec1 h
    · exact hr (hflag hf)
  rw [if_neg hg]
  refine ⟨rfl, ?_⟩
  intro x hx
  dsimp only
  split
  · have hH : (List.foldl
        (fun acc e => if e.inUse = true then (fsRemove fuel acc (nm ++ e.name) recFlag).1 else acc)
        st (st.tables sec)).headers = st.headers := by
      refine foldl_invariant (fun a => a.headers = st.headers) _ _ ?_ st rfl
      intro a b hPa
      by_cases hb : b.inUse = true <;>
        simp only [hb, if_true, if_false, fsRemove_headers, hPa, Bool.false_eq_true]
    rw [hH]
    exact clear_fold_mem _ _ x hx
  · exact clear_fold_mem _ _ x hx

/-- C7 (witness): removing "/f" on `c7st` succeeds and clears both header
sectors of its chain, 9 and 30, in the persisted bitmap. -/
theorem remove_clears_whole_header_chain_witness :
    (fsRemove 1 c7st ['/', 'f'] false).2 = true
    ∧ (fsRemove 1 c7st ['/', 'f'] false).1.bitmap 9 = false
    ∧ (fsRemove 1 c7st ['/', 'f'] false).1.bitmap 30 = false := by
  have h := remove_clears_whole_header_chain 0 c7st ['/', 'f'] ['/'] ['/', 'f'] 1 9 false
    (by decide) (by decide) (by decide) (by decide) (by decide) (by decide)
  exact ⟨h.1, h.2 9 (by decide), h.2 30 (by decide)⟩

/-- C8 (amended): Directory::Add behaves exactly as `addSpec` describes —
failure precisely on a truncated-name duplicate among inUse entries or a
table with no free slot, and otherwise the first free slot is claimed
with the truncated name, sector and flag; no disk state is involved. -/
theorem add_matches_addSpec (t : DirTable) (n : Name) (s : Int) (f : Bool) :
    dirAdd t n s f = addSpec t n s f := by
  have hpred : (fun e : DirectoryEntry =>
      e.inUse && e.name.take fileNameMaxLen == n.take fileNameMaxLen) = entryMatches n := rfl
  rw [dirAdd, addSpec, findEntry?, hpred, find?_isSome_eq_any]
  by_cases h : t.any (entryMatches n) = true
  · rw [if_pos h, if_pos h]
  · rw [if_neg h, if_neg h, dirAddAux_eq_firstFree]

/-- C8 (counterexample to the claim as stated): `c9table` stores the
truncation "/abcdefgh"; adding the ten-character name "/abcdefghX" fails
even though that name is present in no entry and free slots exist — so
"fails exactly when the name is already present or the table is full" is
wrong without the truncation amendment. -/
theorem add_fails_without_exact_duplicate :
    dirAdd c9table ['/', 'a', 'b', 'c', 'd', 'e', 'f', 'g', 'h', 'X'] 9 false = none
    ∧ (∀ e ∈ c9table, e.name ≠ ['/', 'a', 'b', 'c', 'd', 'e', 'f', 'g', 'h', 'X'])
    ∧ (∃ e ∈ c9table, e.inUse = false) := by decide

/-- C9: every lookup (FindIndex, Find, GetFlag) and the duplicate check of
Add compare names with strncmp bounded by FileNameMaxLen, so two names
agreeing on their first FileNameMaxLen characters are interchangeable; in
particular, after Add stores one of them, Find of the other returns the
new entry's sector. -/
theorem lookups_truncate_to_fileNameMaxLen (t : DirTable) (n1 n2 : Name) (s : Int) (f : Bool)
    (h : n1.take fileNameMaxLen = n2.take fileNameMaxLen) :
    dirFindIndex t n1 = dirFindIndex t n2
    ∧ dirFind t n1 = dirFind t n2
    ∧ dirGetFlag t n1 = dirGetFlag t n2
    ∧ (dirAdd t n1 s f = none ↔ dirAdd t n2 s f = none)
    ∧ (∀ t', dirAdd t n1 s f = some t' → dirFind t' n2 = s) := by
  have hpred := entryMatches_congr h
  refine ⟨?_, ?_, ?_, ?_, ?_⟩
  · rw [dirFindIndex, dirFindIndex, hpred]
  · rw [dirFind, dirFind, findEntry?, findEntry?, hpred]
  · rw [dirGetFlag, dirGetFlag, findEntry?, findEntry?, hpred]
  · rw [dirAdd, dirAdd, findEntry?, findEntry?, hpred]
    by_cases hdup : (t.find? (entryMatches n2)).isSome
    · simp [hdup]
    · simp only [hdup, Bool.false_eq_true, if_false]
      rw [dirAddAux_eq_none, dirAddAux_eq_none]
  · intro t' hadd
    rw [dirAdd] at hadd
    by_cases hdup : (findEntry? t n1).isSome
    · rw [if_pos hdup] at hadd; cases hadd
    · rw [if_neg hdup] at hadd
      have hnone : t.find? (entryMatches n1) = none := by
        rw [findEntry?] at hdup
        cases hfind : t.find? (entryMatches n1) with
        | none => rfl
        | some e => rw [hfind] at hdup; exact absurd rfl hdup
      exact dirAddAux_find n1 n2 s f h t t'
        (fun e he => by
          have := List.find?_eq_none.mp hnone e he
          simpa using this) hadd

/-- C9 (witness): the 10-character names "/abcdefghX" and "/abcdefghY"
agree on their first nine characters, so Find treats them alike on
`c9table` (both return 42, the sector of the entry stored under the
truncation). -/
theorem lookups_truncate_to_fileNameMaxLen_witness :
    dirFind c9table ['/', 'a', 'b', 'c', 'd', 'e', 'f', 'g', 'h', 'X']
      = dirFind c9table ['/', 'a', 'b', 'c', 'd', 'e', 'f', 'g', 'h', 'Y']
    ∧ dirFind c9table ['/', 'a', 'b', 'c', 'd', 'e', 'f', 'g', 'h', 'Y'] = 42 :=
  ⟨(lookups_truncate_to_fileNameMaxLen c9table
      ['/', 'a', 'b', 'c', 'd', 'e', 'f', 'g', 'h', 'X']
      ['/', 'a', 'b', 'c', 'd', 'e', 'f', 'g', 'h', 'Y'] 0 false (by decide)).2.1,
   by decide⟩

/-- C10: when path resolution fails, FileSystem::List performs no check on
the sentinel: it opens sector -1 and emits whatever reads there as a
directory table. -/
theorem list_proceeds_on_lookup_failure (st : FSState) (cs : List Name)
    (h : findFormRoot st.tables cs (st.tables directorySector) = -1) :
    fsList st cs false = dirList (st.tables (-1)) := by
  simp only [fsList, h]
  rfl

/-- C10 (witness): on `c1st` the path z/z does not resolve, and List still
produces the listing of the table read from sector -1. -/
theorem list_proceeds_on_lookup_failure_witness :
    fsList c1st [['z'], ['z']] false = dirList (c1st.tables (-1)) :=
  list_proceeds_on_lookup_failure c1st [['z'], ['z']] (by decide)

end NachosFS
